import Mathlib

/-!
Verification of the tiered-memory coordinator implemented in
`src/extensions/memory-mem0/docker/mem0_server.py`.

The server keeps an ephemeral short-term tier (Redis, modelled as an
association list of key/value pairs with a TTL per entry) and a durable
long-term tier (the external mem0 engine, modelled as a stateful adapter
whose behaviour is an arbitrary call-indexed function supplied as a
parameter).  Strings are modelled as `List Char` so that key construction
and glob matching can be reasoned about with ordinary list lemmas.
Python floats (relevance scores) are modelled as rationals.
-/

namespace Mem0

/-- Strings of the server, modelled as character lists. -/
abbrev Str := List Char

/-- Opaque metadata payload: an ordered key-value mapping passed through
unchanged (spec section 9, "Dynamic metadata payloads"). -/
abbrev MetaData := List (Str × Str)

/-- One role-tagged message (`class Message`, mem0_server.py lines 264-266). -/
structure Message where
  role : Str
  content : Str
deriving DecidableEq

/-- Fuel-indexed worker for glob matching; the fuel strictly dominates
`p.length + s.length`, so the zero case is unreachable at the call site. -/
def globMatchF : Nat → Str → Str → Bool
  | 0, _, _ => false
  | _ + 1, [], s => s.isEmpty
  | fuel + 1, p :: ps, s =>
      if p = '*' then
        match s with
        | [] => globMatchF fuel ps []
        | c :: cs => globMatchF fuel ps (c :: cs) || globMatchF fuel (p :: ps) cs
      else
        match s with
        | [] => false
        | c :: cs => (p == '?' || p == c) && globMatchF fuel ps cs

/-- Glob matching as performed by `redis_client.keys(pattern)`.
Only the wildcards the server's patterns can contain are interpreted:
`*` matches any sequence of characters and `?` any single character
(character classes never occur in the server's patterns). -/
def globMatch (p s : Str) : Bool := globMatchF (p.length + s.length + 1) p s

/-- The constant `SHORT_TERM_PREFIX = "stm:"` (line 99).  Renamed to a
neutral identifier; it is the namespace prepended to every ephemeral key. -/
def SHORT_TERM_NS : Str := "stm:".toList

/-- The constant `SHORT_TERM_TTL_HOURS = 24` (line 98). -/
def SHORT_TERM_TTL_HOURS : Nat := 24

/-- The constant `PROMOTION_THRESHOLD = 3` (line 100). -/
def PROMOTION_THRESHOLD : Nat := 3

/-- The JSON document stored under an ephemeral key: the payload written by
`add_memory` plus the `created_at` and `access_count` fields that
`store_short_term` adds (lines 304-316, 433-439). -/
structure StmData where
  messages : List Message
  user_id : Option Str
  agent_id : Option Str
  session_id : Option Str
  metadata : Option MetaData
  created_at : Str
  access_count : Nat
deriving DecidableEq

/-- A stored Redis value together with its remaining TTL (hours);
`setex` installs the TTL, `set ... keepttl=True` preserves it. -/
structure StmEntry where
  data : StmData
  ttl : Nat
deriving DecidableEq

/-- The Redis keyspace: an association list from full keys to entries.
`redis_client.keys` enumerates it in list order. -/
abbrev RedisStore := List (Str × StmEntry)

/-- Association-list lookup, the model of `redis_client.get(key)`. -/
def lookupKey (k : Str) : RedisStore → Option StmEntry
  | [] => none
  | (k', e) :: rest => if k' = k then some e else lookupKey k rest

/-- `redis_client.setex` on an existing key replaces its value and TTL in
place; on a fresh key it appends the binding. -/
def setKey (k : Str) (e : StmEntry) : RedisStore → RedisStore
  | [] => [(k, e)]
  | (k', e') :: rest => if k' = k then (k, e) :: rest else (k', e') :: setKey k e rest

/-- `redis_client.delete(key)` removes the binding for a key. -/
def deleteKey (k : Str) (store : RedisStore) : RedisStore :=
  store.filter (fun kv => !(kv.1 == k))

/-- Python truthiness of an optional string: `x or d` falls back to `d`
both when `x` is `None` and when it is the empty string. -/
def pyOr (x : Option Str) (d : Str) : Str :=
  match x with
  | none => d
  | some s => if s = [] then d else s

/-- Python rendering of an optional string inside an f-string:
`None` prints as the text `None`. -/
def pyOptStr (x : Option Str) : Str :=
  match x with
  | none => "None".toList
  | some s => s

/-- The content payload handed to `store_short_term` by `add_memory`
(the `short_term_data` dict, lines 433-439). -/
structure StmPayload where
  messages : List Message
  user_id : Option Str
  agent_id : Option Str
  session_id : Option Str
  metadata : Option MetaData
deriving DecidableEq

/-- `store_short_term` stamps the payload with `created_at` (the current
time) and `access_count = 0` before serialising it (lines 310-311). -/
def mkStmData (p : StmPayload) (now : Str) : StmData :=
  { messages := p.messages, user_id := p.user_id, agent_id := p.agent_id,
    session_id := p.session_id, metadata := p.metadata,
    created_at := now, access_count := 0 }

/-- `store_short_term(key, data, ttl_hours)` (lines 304-316).  `redis`
is `none` when the client is unavailable; `storeFails` selects the
caught-exception branch of the `try`, in which Redis is left unchanged.
Returns the boolean the function returns together with the new keyspace. -/
def storeShortTerm (redis : Option RedisStore) (storeFails : Bool) (key : Str)
    (p : StmPayload) (now : Str) (ttlHours : Nat) : Bool × Option RedisStore :=
  match redis with
  | none => (false, none)
  | some store =>
      if storeFails then (false, some store)
      else (true, some (setKey (SHORT_TERM_NS ++ key) ⟨mkStmData p now, ttlHours⟩ store))

/-- Increment of the `access_count` field performed by `get_short_term`
(line 331). -/
def bumpData (d : StmData) : StmData :=
  { d with access_count := d.access_count + 1 }

/-- The write-back `redis_client.set(key, ..., keepttl=True)` keeps the TTL
and stores the bumped document (line 332). -/
def bumpEntry (e : StmEntry) : StmEntry :=
  { e with data := bumpData e.data }

/-- `get_short_term(pattern)` (lines 319-337): list every document whose key
matches `stm:<pattern>*`, incrementing each matched document's
`access_count` in place.  Returns the (already bumped) parsed documents in
keyspace order, together with the updated keyspace. -/
def getShortTerm (store : RedisStore) (pat : Str) : List StmData × RedisStore :=
  let full := SHORT_TERM_NS ++ pat ++ ['*']
  ((store.filter (fun kv => globMatch full kv.1)).map (fun kv => bumpData kv.2.data),
   store.map (fun kv => if globMatch full kv.1 then (kv.1, bumpEntry kv.2) else kv))

/-- `get_short_term` returns `[]` without touching anything when the Redis
client is absent (lines 321-322). -/
def getShortTermOpt (redis : Option RedisStore) (pat : Str) :
    List StmData × Option RedisStore :=
  match redis with
  | none => ([], none)
  | some store =>
      let r := getShortTerm store pat
      (r.1, some r.2)

/-- A record selected by the promotion scan: the parsed document with its
Redis key attached (`parsed["redis_key"] = key`, line 353). -/
structure PromotableRec where
  data : StmData
  redis_key : Str
deriving DecidableEq

/-- `get_promotable_memories(user_id)` (lines 340-358): scan keys matching
`stm:<user or star>:*` and keep documents with
`access_count >= PROMOTION_THRESHOLD`, without bumping any counter. -/
def getPromotableMemories (redis : Option RedisStore) (uid : Option Str) :
    List PromotableRec :=
  match redis with
  | none => []
  | some store =>
      let pattern := SHORT_TERM_NS ++ pyOr uid ['*'] ++ [':', '*']
      (store.filter (fun kv =>
          globMatch pattern kv.1 && decide (PROMOTION_THRESHOLD ≤ kv.2.data.access_count))).map
        (fun kv => { data := kv.2.data, redis_key := kv.1 })

/-! ### Durable engine adapter -/

/-- Opaque result returned by the external engine's `add`. -/
abbrev LtResult := Str

/-- The argument tuple of a `memory.add(messages, user_id=..., agent_id=...,
run_id=..., metadata=...)` call (lines 459-465 and 594-600). -/
structure EngineReq where
  messages : List Message
  user_id : Option Str
  agent_id : Option Str
  run_id : Option Str
  metadata : Option MetaData
deriving DecidableEq

/-- Observable state of the durable tier: the records successfully added,
plus a call counter used to index the engine's behaviour. -/
structure EngineState where
  added : List EngineReq
  calls : Nat
deriving DecidableEq

/-- Environment behaviour of the external engine: the outcome of the n-th
`memory.add` call of the process.  `Except.error` models a raised
exception. -/
abbrev EngineBeh := Nat → EngineReq → Except Str LtResult

/-- Whether an engine call returned normally. -/
def okB : Except Str LtResult → Bool
  | .ok _ => true
  | .error _ => false

/-- One `memory.add` call: consumes a call index and, on success, appends
the record to the durable tier. -/
def engineAdd (beh : EngineBeh) (eng : EngineState) (req : EngineReq) :
    Except Str LtResult × EngineState :=
  match beh eng.calls req with
  | .ok r => (.ok r, ⟨eng.added ++ [req], eng.calls + 1⟩)
  | .error e => (.error e, ⟨eng.added, eng.calls + 1⟩)

/-- Process state: the Redis keyspace (`none` when the client failed to
initialise, lines 236-242) and the mem0 engine (`none` when
`create_memory_instance` failed, lines 245-249). -/
structure SysState where
  redis : Option RedisStore
  engine : Option EngineState
deriving DecidableEq

/-! ### Text helpers used by the search path -/

/-- Python `str.lower()` on ASCII text. -/
def strLower (s : Str) : Str := s.map Char.toLower

/-- Python's substring test `needle in hay`. -/
def strContains : Str → Str → Bool
  | [], needle => needle.isEmpty
  | c :: t, needle => needle.isPrefixOf (c :: t) || strContains t needle

/-- Helper of `splitWs`: accumulates the current word (reversed). -/
def splitWsGo : Str → Str → List Str
  | [], acc => if acc = [] then [] else [acc.reverse]
  | c :: cs, acc =>
      if c.isWhitespace then
        if acc = [] then splitWsGo cs [] else acc.reverse :: splitWsGo cs []
      else splitWsGo cs (c :: acc)

/-- Python `str.split()` with no argument: split on whitespace runs,
dropping empty words. -/
def splitWs (s : Str) : List Str := splitWsGo s []

/-- Python `repr` of a plain string (single quotes; faithful for content
free of quotes, backslashes and control characters). -/
def pyReprStrLit (s : Str) : Str := '\'' :: s ++ ['\'']

/-- Python `str()` of one message dict, e.g. the text
`\x7b'role': 'user', 'content': 'hi'\x7d` (keys in insertion order). -/
def pyStrMessage (m : Message) : Str :=
  "\x7b'role': ".toList ++ pyReprStrLit m.role ++ ", 'content': ".toList ++
    pyReprStrLit m.content ++ "\x7d".toList

/-- Python `str()` of the messages list, used as the keyword-match corpus
(`content = str(messages).lower()`, line 516). -/
def pyStrMessages (ms : List Message) : Str :=
  "[".toList ++ List.intercalate ", ".toList (ms.map pyStrMessage) ++ "]".toList

/-- `format_messages_as_memory` (lines 619-639). -/
def formatMessagesAsMemory (messages : List Message) : Str :=
  if messages = [] then pyStrMessages messages
  else
    let parts := messages.filterMap (fun m =>
      if m.role = "user".toList ∧ m.content ≠ [] then
        some ("User said: ".toList ++ m.content)
      else if m.role = "assistant".toList ∧ m.content ≠ [] then
        some ("Assistant said: ".toList ++ m.content)
      else none)
    if parts ≠ [] then List.intercalate " | ".toList parts else pyStrMessages messages

/-! ### Search -/

/-- Which tier a merged search result came from. -/
inductive Source where
  | short_term
  | long_term
deriving DecidableEq

/-- `class MemoryResponse` (lines 293-300), scores as rationals. -/
structure MemoryResponse where
  id : Str
  memory : Str
  user_id : Option Str
  agent_id : Option Str
  score : Option ℚ
  source : Source
  metadata : Option MetaData
deriving DecidableEq

/-- The sort key `x.score or 0` of line 560 (`None` and `0.0` both give 0). -/
def scoreKey (r : MemoryResponse) : ℚ := r.score.getD 0

/-- The descending-score ordering used by the merge: `a` may stay before
`b` when `b`'s key is at most `a`'s. -/
def rDesc (a b : MemoryResponse) : Prop := scoreKey b ≤ scoreKey a

instance : DecidableRel rDesc :=
  fun a b => inferInstanceAs (Decidable (scoreKey b ≤ scoreKey a))

instance : IsTotal MemoryResponse rDesc :=
  ⟨fun a b => (le_total (scoreKey b) (scoreKey a)).imp id id⟩

instance : IsTrans MemoryResponse rDesc :=
  ⟨fun _ _ _ hab hbc => le_trans hbc hab⟩

/-- `class SearchRequest` (lines 278-284).  `limit` is the requested result
count, a natural number. -/
structure SearchRequest where
  query : Str
  user_id : Option Str
  agent_id : Option Str
  session_id : Option Str
  limit : Nat
  include_short_term : Bool
deriving DecidableEq

/-- One ranked record returned by the engine's `search` (lines 546-555). -/
structure LtSearchItem where
  id : Str
  memory : Str
  user_id : Option Str
  agent_id : Option Str
  score : Option ℚ
  metadata : Option MetaData
deriving DecidableEq

/-- Body of the `/memories/search` response (lines 568-575). -/
structure SearchResponse where
  memories : List MemoryResponse
  count : Nat
  sources_short : Nat
  sources_long : Nat
deriving DecidableEq

/-- The keyword test of line 517: the whole lowercased query is a substring
of the lowercased corpus, or any whitespace-separated word of it is. -/
def keywordMatch (query corpus : Str) : Bool :=
  strContains corpus query || (splitWs query).any (fun w => strContains corpus w)

/-- The ephemeral contribution to a search: the Redis scan of lines
509-526, producing responses scored 0.8 with source `short_term`. -/
def searchStmMatches (req : SearchRequest) (redis : Option RedisStore) :
    List MemoryResponse × Option RedisStore :=
  if req.include_short_term && redis.isSome then
    let pattern := pyOr req.user_id ['*']
    let r := getShortTermOpt redis pattern
    (r.1.filterMap (fun stm =>
        let ql := strLower req.query
        let content := strLower (pyStrMessages stm.messages)
        if keywordMatch ql content then
          some { id := SHORT_TERM_NS ++ pyOptStr stm.user_id ++ ':' :: stm.created_at,
                 memory := formatMessagesAsMemory stm.messages,
                 user_id := stm.user_id, agent_id := stm.agent_id,
                 score := some ((4 : ℚ)/5), source := .short_term,
                 metadata := stm.metadata }
        else none),
     r.2)
  else ([], redis)

/-- The durable contribution to a search (lines 529-557): `lt` is `none`
when the engine was never initialised, `some (.error _)` when
`memory.search` raised (caught, contributing nothing), and
`some (.ok items)` on success. -/
def searchLtMatches (lt : Option (Except Str (List LtSearchItem))) :
    List MemoryResponse :=
  match lt with
  | none => []
  | some (.error _) => []
  | some (.ok items) =>
      items.map (fun r =>
        { id := r.id, memory := r.memory, user_id := r.user_id,
          agent_id := r.agent_id, score := r.score, source := .long_term,
          metadata := r.metadata })

/-- `search_memories` (lines 498-575): concatenate the ephemeral matches
and the durable matches, stably sort by score descending
(`results.sort(key=lambda x: x.score or 0, reverse=True)`), truncate to
`limit`, and report per-tier counts. -/
def searchMemories (req : SearchRequest) (redis : Option RedisStore)
    (lt : Option (Except Str (List LtSearchItem))) :
    SearchResponse × Option RedisStore :=
  let stm := searchStmMatches req redis
  let results := stm.1 ++ searchLtMatches lt
  let final := (results.insertionSort rDesc).take req.limit
  ({ memories := final, count := final.length,
     sources_short := final.countP (fun r => r.source == .short_term),
     sources_long := final.countP (fun r => r.source == .long_term) },
   stm.2)

/-! ### Add -/

/-- `class AddMemoryRequest` (lines 269-275). -/
structure AddMemoryRequest where
  messages : List Message
  user_id : Option Str
  agent_id : Option Str
  session_id : Option Str
  metadata : Option MetaData
  short_term_only : Bool
deriving DecidableEq

/-- Body of the `/memories/add` response (lines 489-495). -/
structure AddResponse where
  success : Bool
  short_term : Bool
  long_term : Bool
  memory_key : Option Str
  result : Option LtResult
deriving DecidableEq

/-- The engine request built by `add_memory`'s durable write
(lines 459-465): the session id is passed as `run_id`. -/
def addEngineReq (req : AddMemoryRequest) : EngineReq :=
  { messages := req.messages, user_id := req.user_id, agent_id := req.agent_id,
    run_id := req.session_id, metadata := req.metadata }

/-- `add_memory` (lines 412-495).  `now` abstracts
`datetime.utcnow().strftime(...)`, `dig` the 8-hex digest of the messages,
`redisFails` the caught-exception branch of `store_short_term`.  The audit
log (Postgres) is outside the claims and not modelled. -/
def addMemory (beh : EngineBeh) (req : AddMemoryRequest) (now dig : Str)
    (redisFails : Bool) (st : SysState) : AddResponse × SysState :=
  let memory_key := pyOr req.user_id "anon".toList ++ ':' :: now ++ ':' :: dig
  let stored := storeShortTerm st.redis redisFails memory_key
    { messages := req.messages, user_id := req.user_id, agent_id := req.agent_id,
      session_id := req.session_id, metadata := req.metadata } now SHORT_TERM_TTL_HOURS
  let ltStep : Option LtResult × Option EngineState :=
    if req.short_term_only then (none, st.engine)
    else
      match st.engine with
      | none => (none, none)
      | some eng =>
          match engineAdd beh eng (addEngineReq req) with
          | (.ok r, eng') => (some r, some eng')
          | (.error _, eng') => (none, some eng')
  ({ success := true, short_term := stored.1, long_term := ltStep.1.isSome,
     memory_key := if stored.1 then some memory_key else none,
     result := ltStep.1 },
   { redis := stored.2, engine := ltStep.2 })

/-! ### Promote -/

/-- `class PromoteRequest` (lines 287-290).  The handler never reads
`memory_ids` or `agent_id`; the fields are kept to mirror the source. -/
structure PromoteRequest where
  memory_ids : Option (List Str)
  user_id : Option Str
  agent_id : Option Str
deriving DecidableEq

/-- One element of the `promoted` list in the response (lines 606-609). -/
structure PromotedItem where
  original_key : Str
  result : LtResult
deriving DecidableEq

/-- Body of the `/memories/promote` success response (lines 613-616). -/
structure PromoteResponse where
  promoted_count : Nat
  promoted : List PromotedItem
deriving DecidableEq

/-- An `HTTPException` raised by a handler. -/
structure HErr where
  status : Nat
  detail : Str
deriving DecidableEq

/-- The engine request built from a stored ephemeral document during
promotion (lines 594-600). -/
def stmEngineReq (d : StmData) : EngineReq :=
  { messages := d.messages, user_id := d.user_id, agent_id := d.agent_id,
    run_id := d.session_id, metadata := d.metadata }

/-- The per-record loop of `promote_memories` (lines 592-611): each record
gets one `memory.add` call; on success the source key is deleted (when the
client is present and the key non-empty) and a per-record outcome is
appended; on failure the record is skipped. -/
def promoteLoop (beh : EngineBeh) :
    List PromotableRec → Option RedisStore → EngineState → List PromotedItem →
      Option RedisStore × EngineState × List PromotedItem
  | [], redis, eng, acc => (redis, eng, acc)
  | m :: rest, redis, eng, acc =>
      match engineAdd beh eng (stmEngineReq m.data) with
      | (.ok r, eng') =>
          let redis' :=
            if redis.isSome && !m.redis_key.isEmpty then
              redis.map (deleteKey m.redis_key)
            else redis
          promoteLoop beh rest redis' eng' (acc ++ [⟨m.redis_key, r⟩])
      | (.error _, eng') => promoteLoop beh rest redis eng' acc

/-- `promote_memories` (lines 578-616): 503 when the engine was never
initialised; otherwise scan for eligible records (the request's
`memory_ids` is ignored by the handler) and run the promotion loop. -/
def promoteMemories (beh : EngineBeh) (req : PromoteRequest) (st : SysState) :
    Except HErr PromoteResponse × SysState :=
  match st.engine with
  | none => (.error ⟨503, "Long-term memory not initialized".toList⟩, st)
  | some eng =>
      let promotable := getPromotableMemories st.redis req.user_id
      let step := promoteLoop beh promotable st.redis eng []
      (.ok { promoted_count := step.2.2.length, promoted := step.2.2 },
       { redis := step.1, engine := some step.2.1 })

/-! ### Get-by-user -/

/-- One element of the `/memories/user/` response: the short-term items
carry key, formatted memory, access count and creation time (lines
652-658); the long-term items are the engine's `get_all` records, kept
opaque. -/
inductive UserMemoryItem where
  | short (id : Str) (memory : Str) (access_count : Nat) (created_at : Str)
  | long (item : Str)
deriving DecidableEq

/-- Body of the `/memories/user/` response (line 674). -/
structure UserMemoriesResponse where
  memories : List UserMemoryItem
  user_id : Str
deriving DecidableEq

/-- The short-term item built for a bumped document (lines 652-658). -/
def mkUserShortItem (user_id : Str) (stm : StmData) : UserMemoryItem :=
  .short (SHORT_TERM_NS ++ user_id ++ ':' :: stm.created_at)
    (formatMessagesAsMemory stm.messages) stm.access_count stm.created_at

/-- `get_user_memories` (lines 642-674).  The engine's `get_all` outcome is
abstracted as `ltAll` the way `lt` is for search; its `limit` argument only
parametrises that external call. -/
def getUserMemories (user_id : Str) (include_short_term : Bool)
    (redis : Option RedisStore) (ltAll : Option (Except Str (List Str))) :
    UserMemoriesResponse × Option RedisStore :=
  let stm :=
    if include_short_term then
      let r := getShortTermOpt redis user_id
      (r.1.map (mkUserShortItem user_id), r.2)
    else ([], redis)
  let ltPart : List UserMemoryItem :=
    match ltAll with
    | none => []
    | some (.error _) => []
    | some (.ok items) => items.map .long
  ({ memories := stm.1 ++ ltPart, user_id := user_id }, stm.2)

/-! ### Lemmas about glob matching -/

theorem globMatchF_congr :
    ∀ (fuel fuel' : Nat) (p s : Str), p.length + s.length < fuel →
      p.length + s.length < fuel' → globMatchF fuel p s = globMatchF fuel' p s := by
  intro fuel
  induction fuel with
  | zero => intro fuel' p s h _; exact absurd h (Nat.not_lt_zero _)
  | succ f ih =>
      intro fuel' p s h h'
      cases fuel' with
      | zero => exact absurd h' (Nat.not_lt_zero _)
      | succ f' =>
          cases p with
          | nil => rfl
          | cons p ps =>
              by_cases hp : p = '*'
              · subst hp
                cases s with
                | nil =>
                    have e1 : globMatchF (f + 1) ('*' :: ps) [] = globMatchF f ps [] := by
                      simp [globMatchF]
                    have e2 : globMatchF (f' + 1) ('*' :: ps) [] = globMatchF f' ps [] := by
                      simp [globMatchF]
                    rw [e1, e2]
                    refine ih f' ps [] ?_ ?_ <;> (simp at h h' ⊢; omega)
                | cons c cs =>
                    have e1 : globMatchF (f + 1) ('*' :: ps) (c :: cs) =
                        (globMatchF f ps (c :: cs) || globMatchF f ('*' :: ps) cs) := by
                      simp [globMatchF]
                    have e2 : globMatchF (f' + 1) ('*' :: ps) (c :: cs) =
                        (globMatchF f' ps (c :: cs) || globMatchF f' ('*' :: ps) cs) := by
                      simp [globMatchF]
                    rw [e1, e2,
                      ih f' ps (c :: cs) (by simp at h ⊢; omega) (by simp at h' ⊢; omega),
                      ih f' ('*' :: ps) cs (by simp at h ⊢; omega) (by simp at h' ⊢; omega)]
              · cases s with
                | nil => simp [globMatchF, hp]
                | cons c cs =>
                    simp only [globMatchF, if_neg hp]
                    rw [ih f' ps cs (by simp at h ⊢; omega) (by simp at h' ⊢; omega)]

theorem globMatchF_eq (fuel : Nat) (p s : Str) (h : p.length + s.length < fuel) :
    globMatchF fuel p s = globMatch p s :=
  globMatchF_congr fuel (p.length + s.length + 1) p s h (by omega)

theorem globMatch_nil (s : Str) : globMatch [] s = s.isEmpty := rfl

theorem globMatch_star_nil (ps : Str) : globMatch ('*' :: ps) [] = globMatch ps [] := by
  have step : globMatch ('*' :: ps) [] =
      globMatchF (('*' :: ps).length + ([] : Str).length) ps [] := rfl
  rw [step, globMatchF_eq _ ps [] (by simp)]

theorem globMatch_star_cons (ps : Str) (c : Char) (cs : Str) :
    globMatch ('*' :: ps) (c :: cs) =
      (globMatch ps (c :: cs) || globMatch ('*' :: ps) cs) := by
  have step : globMatch ('*' :: ps) (c :: cs) =
      (globMatchF (('*' :: ps).length + (c :: cs).length) ps (c :: cs) ||
        globMatchF (('*' :: ps).length + (c :: cs).length) ('*' :: ps) cs) := rfl
  rw [step, globMatchF_eq _ ps (c :: cs) (by simp),
    globMatchF_eq _ ('*' :: ps) cs (by simp)]

theorem globMatch_lit_nil {p : Char} (ps : Str) (hp : p ≠ '*') :
    globMatch (p :: ps) [] = false := by
  rw [globMatch]
  show (if p = '*' then _ else _) = false
  rw [if_neg hp]

theorem globMatch_lit_cons {p : Char} (ps : Str) (c : Char) (cs : Str) (hp : p ≠ '*') :
    globMatch (p :: ps) (c :: cs) = ((p == '?' || p == c) && globMatch ps cs) := by
  rw [globMatch]
  show (if p = '*' then _ else
    ((p == '?' || p == c) && globMatchF ((p :: ps).length + (c :: cs).length) ps cs)) = _
  rw [if_neg hp, globMatchF_eq _ ps cs (by simp; omega)]

theorem globMatch_star_any (s : Str) : globMatch ['*'] s = true := by
  induction s with
  | nil => rw [globMatch_star_nil, globMatch_nil]; rfl
  | cons c cs ih => rw [globMatch_star_cons, ih]; simp

theorem globMatch_star_drop {p t : Str} (s : Str)
    (h : globMatch ('*' :: p) t = true) : globMatch ('*' :: p) (s ++ t) = true := by
  induction s with
  | nil => simpa
  | cons c cs ih =>
      cases hst : cs ++ t with
      | nil => rw [List.cons_append, hst, globMatch_star_cons, ← hst, ih]; simp
      | cons d ds => rw [List.cons_append, hst, globMatch_star_cons, ← hst, ih]; simp

theorem globMatch_lit_append {lit : Str} (p s : Str) (h : '*' ∉ lit) :
    globMatch (lit ++ p) (lit ++ s) = globMatch p s := by
  induction lit with
  | nil => rfl
  | cons c cl ih =>
      have hc : c ≠ '*' := fun hcc => h (hcc ▸ List.mem_cons_self c cl)
      have h' : '*' ∉ cl := fun hm => h (List.mem_cons_of_mem c hm)
      rw [List.cons_append, List.cons_append, globMatch_lit_cons _ _ _ hc, ih h']
      simp

theorem globMatch_append_star_iff {lit : Str} (s : Str)
    (h1 : '*' ∉ lit) (h2 : '?' ∉ lit) :
    globMatch (lit ++ ['*']) s = true ↔ lit <+: s := by
  induction lit generalizing s with
  | nil => simpa using globMatch_star_any s
  | cons c cl ih =>
      have hc : c ≠ '*' := fun hcc => h1 (hcc ▸ List.mem_cons_self c cl)
      have hq : c ≠ '?' := fun hcc => h2 (hcc ▸ List.mem_cons_self c cl)
      have h1' : '*' ∉ cl := fun hm => h1 (List.mem_cons_of_mem c hm)
      have h2' : '?' ∉ cl := fun hm => h2 (List.mem_cons_of_mem c hm)
      cases s with
      | nil =>
          rw [List.cons_append, globMatch_lit_nil _ hc]
          simp
      | cons d ds =>
          rw [List.cons_append, globMatch_lit_cons _ _ _ hc]
          have hq' : (c == '?') = false := by
            simpa using hq
          rw [hq', Bool.false_or, List.cons_prefix_cons]
          constructor
          · rintro hb
            rcases Bool.and_eq_true_iff.mp hb with ⟨hcd, hrec⟩
            exact ⟨by simpa using hcd, (ih ds h1' h2').mp hrec⟩
          · rintro ⟨hcd, hpre⟩
            subst hcd
            simp [ih ds h1' h2' |>.mpr hpre]

/-- A pattern beginning with a literal character never matches the empty
key; in particular every key matched by a `stm:`-prefixed pattern is
non-empty. -/
theorem ne_nil_of_globMatch {p : Char} {ps k : Str} (hp : p ≠ '*')
    (h : globMatch (p :: ps) k = true) : k ≠ [] := by
  intro hk
  subst hk
  rw [globMatch_lit_nil _ hp] at h
  exact Bool.false_ne_true h

/-! ### Owner-prefix reasoning -/

theorem takeWhile_append_colon (u r : Str) (hu : ':' ∉ u) :
    (u ++ ':' :: r).takeWhile (fun c => !(c == ':')) = u := by
  induction u with
  | nil => simp [List.takeWhile]
  | cons c cl ih =>
      have hc : c ≠ ':' := fun hcc => hu (hcc ▸ List.mem_cons_self c cl)
      have hu' : ':' ∉ cl := fun hm => hu (List.mem_cons_of_mem c hm)
      rw [List.cons_append, List.takeWhile_cons]
      simp [hc, ih hu']

theorem owner_eq_of_prefix {u u' t : Str} (hu : ':' ∉ u) (hu' : ':' ∉ u')
    (h : (u ++ [':']) <+: (u' ++ ':' :: t)) : u = u' := by
  obtain ⟨r, hr⟩ := h
  have hr' : u ++ ':' :: r = u' ++ ':' :: t := by
    simpa [List.append_assoc] using hr
  have := congrArg (List.takeWhile (fun c => !(c == ':'))) hr'
  rwa [takeWhile_append_colon u r hu, takeWhile_append_colon u' t hu'] at this

/-! ### Association-list lemmas -/

theorem lookup_setKey_self (k : Str) (e : StmEntry) (s : RedisStore) :
    lookupKey k (setKey k e s) = some e := by
  induction s with
  | nil => simp [setKey, lookupKey]
  | cons kv rest ih =>
      obtain ⟨k', e'⟩ := kv
      by_cases h : k' = k
      · simp [setKey, h, lookupKey]
      · simp [setKey, h, lookupKey, ih]

theorem lookup_setKey_ne (k k' : Str) (e : StmEntry) (s : RedisStore)
    (h : k' ≠ k) : lookupKey k' (setKey k e s) = lookupKey k' s := by
  have hne : k ≠ k' := fun hh => h hh.symm
  induction s with
  | nil => simp [setKey, lookupKey, hne]
  | cons kv rest ih =>
      obtain ⟨k0, e0⟩ := kv
      by_cases h0 : k0 = k
      · have h2 : k0 ≠ k' := by rw [h0]; exact hne
        simp only [setKey, if_pos h0, lookupKey, if_neg hne, if_neg h2]
      · simp only [setKey, if_neg h0, lookupKey]
        by_cases h1 : k0 = k'
        · simp [h1]
        · simp [h1, ih]

theorem lookup_deleteKey (k k' : Str) (s : RedisStore) :
    lookupKey k (deleteKey k' s) = if k = k' then none else lookupKey k s := by
  induction s with
  | nil => simp [deleteKey, lookupKey]
  | cons kv rest ih =>
      obtain ⟨k0, e0⟩ := kv
      simp only [deleteKey, List.filter_cons] at ih ⊢
      by_cases h0 : k0 = k'
      · subst h0
        simp only [beq_self_eq_true, Bool.not_true, if_neg (by simp : ¬false = true)]
        rw [ih]
        by_cases hk : k = k0
        · simp [hk]
        · have h2 : k0 ≠ k := fun hh => hk hh.symm
          simp [hk, lookupKey, h2]
      · have hb : (!((k0, e0).1 == k')) = true := by simp [h0]
        rw [if_pos hb]
        simp only [lookupKey]
        by_cases hk : k0 = k
        · subst hk
          simp [fun hh : k0 = k' => h0 hh]
        · simp [hk, ih]

theorem mem_of_lookup {k : Str} {e : StmEntry} :
    ∀ {s : RedisStore}, lookupKey k s = some e → (k, e) ∈ s := by
  intro s
  induction s with
  | nil => intro h; simp [lookupKey] at h
  | cons kv rest ih =>
      obtain ⟨k0, e0⟩ := kv
      intro h
      by_cases h0 : k0 = k
      · subst h0
        have h' : e0 = e := by simpa [lookupKey] using h
        subst h'
        exact List.mem_cons_self _ _
      · simp only [lookupKey, if_neg h0] at h
        exact List.mem_cons_of_mem _ (ih h)

/-! ### Stability of the score-descending sort

A stable sort leaves the subsequence of elements with any fixed sort key
unchanged; this is what makes equal-score ephemeral results stay in front
of equal-score durable ones. -/

theorem filter_key_orderedInsert (a : MemoryResponse) (l : List MemoryResponse) (c : ℚ) :
    (l.orderedInsert rDesc a).filter (fun x => decide (scoreKey x = c)) =
      if scoreKey a = c then a :: l.filter (fun x => decide (scoreKey x = c))
      else l.filter (fun x => decide (scoreKey x = c)) := by
  rw [List.orderedInsert_eq_take_drop, List.filter_append, List.filter_cons]
  by_cases hc : scoreKey a = c
  · have htw : (l.takeWhile fun b => ¬ rDesc a b).filter
        (fun x => decide (scoreKey x = c)) = [] := by
      rw [List.filter_eq_nil_iff]
      intro b hb
      have hq : ¬ rDesc a b := by
        have := List.mem_takeWhile_imp hb
        simpa using this
      have hlt : scoreKey a < scoreKey b := lt_of_not_le hq
      simp only [decide_eq_true_eq]
      intro hbc
      exact absurd (hc.trans hbc.symm) (ne_of_lt hlt)
    rw [htw, if_pos hc, if_pos (by simpa using hc)]
    conv_rhs => rw [← List.takeWhile_append_dropWhile
      (fun b => decide (¬ rDesc a b)) l]
    rw [List.filter_append, htw]
    simp
  · rw [if_neg hc, if_neg (by simpa using hc)]
    conv_rhs => rw [← List.takeWhile_append_dropWhile
      (fun b => decide (¬ rDesc a b)) l]
    rw [List.filter_append]

theorem filter_key_insertionSort (l : List MemoryResponse) (c : ℚ) :
    (l.insertionSort rDesc).filter (fun x => decide (scoreKey x = c)) =
      l.filter (fun x => decide (scoreKey x = c)) := by
  induction l with
  | nil => rfl
  | cons a t ih =>
      rw [List.insertionSort, filter_key_orderedInsert, ih, List.filter_cons]
      by_cases hc : scoreKey a = c <;> simp [hc]

/-- Pairwise facts about a key-filtered list lift to pairwise facts about
the full list, guarded by the filter predicate. -/
theorem pairwise_of_pairwise_filter {α : Type} {p : α → Bool} {R : α → α → Prop} :
    ∀ {l : List α}, (l.filter p).Pairwise R →
      l.Pairwise (fun a b => p a = true → p b = true → R a b) := by
  intro l
  induction l with
  | nil => intro _; exact List.Pairwise.nil
  | cons a t ih =>
      intro h
      rw [List.filter_cons] at h
      by_cases hp : p a = true
      · rw [if_pos hp] at h
        rcases List.pairwise_cons.mp h with ⟨hhead, htail⟩
        exact List.pairwise_cons.mpr
          ⟨fun b hb _ hpb => hhead b (List.mem_filter.mpr ⟨hb, hpb⟩), ih htail⟩
      · rw [if_neg hp] at h
        exact List.pairwise_cons.mpr ⟨fun b _ hpa _ => absurd hpa hp, ih h⟩

/-- Every ephemeral search match carries source `short_term` and the fixed
recency score 0.8. -/
theorem searchStmMatches_fields (req : SearchRequest) (redis : Option RedisStore) :
    ∀ x ∈ (searchStmMatches req redis).1,
      x.source = Source.short_term ∧ x.score = some ((4 : ℚ)/5) := by
  intro x hx
  unfold searchStmMatches at hx
  by_cases hcond : (req.include_short_term && redis.isSome) = true
  · rw [if_pos hcond] at hx
    simp only [List.mem_filterMap] at hx
    obtain ⟨stm, _, heq⟩ := hx
    by_cases hkw : keywordMatch (strLower req.query)
        (strLower (pyStrMessages stm.messages)) = true
    · rw [if_pos hkw] at heq
      cases heq
      exact ⟨rfl, rfl⟩
    · rw [if_neg hkw] at heq
      cases heq
  · rw [if_neg hcond] at hx
    exact absurd hx (List.not_mem_nil x)

/-- Every durable search match carries source `long_term`. -/
theorem searchLtMatches_source (lt : Option (Except Str (List LtSearchItem))) :
    ∀ x ∈ searchLtMatches lt, x.source = Source.long_term := by
  intro x hx
  match lt with
  | none => exact absurd hx (List.not_mem_nil x)
  | some (.error _) => exact absurd hx (List.not_mem_nil x)
  | some (.ok items) =>
      simp only [searchLtMatches, List.mem_map] at hx
      obtain ⟨r, _, heq⟩ := hx
      cases heq
      rfl

/-- Claim C1: for every search request, the returned memory list is the
merge of the ephemeral matches (each scored 0.8) and the durable matches,
stably sorted by score descending and truncated to the requested limit:
its length is at most the limit, its sort keys (`score or 0`) are
non-increasing, among entries of equal key no durable-sourced entry
precedes an ephemeral-sourced one, and every ephemeral-sourced entry in it
carries score 0.8. -/
theorem C1_search_merge (req : SearchRequest) (redis : Option RedisStore)
    (lt : Option (Except Str (List LtSearchItem))) :
    ((searchMemories req redis lt).1.memories.length ≤ req.limit) ∧
    (searchMemories req redis lt).1.memories.Pairwise rDesc ∧
    (searchMemories req redis lt).1.memories.Pairwise
      (fun a b => scoreKey a = scoreKey b →
        ¬(a.source = Source.long_term ∧ b.source = Source.short_term)) ∧
    (∀ r ∈ (searchMemories req redis lt).1.memories,
      r.source = Source.short_term → r.score = some ((4 : ℚ)/5)) := by
  have hmemdef : (searchMemories req redis lt).1.memories =
      (((searchStmMatches req redis).1 ++ searchLtMatches lt).insertionSort rDesc).take
        req.limit := rfl
  set stmL := (searchStmMatches req redis).1 with hstmL
  set ltL := searchLtMatches lt with hltL
  set results := stmL ++ ltL with hresults
  have hstmf := searchStmMatches_fields req redis
  have hltf := searchLtMatches_source lt
  have hsorted : (results.insertionSort rDesc).Pairwise rDesc :=
    List.sorted_insertionSort rDesc results
  have htake : ∀ {R : MemoryResponse → MemoryResponse → Prop},
      (results.insertionSort rDesc).Pairwise R →
        ((results.insertionSort rDesc).take req.limit).Pairwise R :=
    fun h => h.sublist (List.take_sublist _ _)
  refine ⟨?_, ?_, ?_, ?_⟩
  · rw [hmemdef, List.length_take]
    exact min_le_left _ _
  · rw [hmemdef]
    exact htake hsorted
  · -- stability: the key-0.8 subsequence of the sorted list equals the
    -- key-0.8 subsequence of the input, in which every ephemeral entry
    -- precedes every durable entry.
    have hfil := filter_key_insertionSort results ((4 : ℚ)/5)
    have hstmfil : stmL.filter (fun x => decide (scoreKey x = (4 : ℚ)/5)) = stmL := by
      rw [List.filter_eq_self]
      intro a ha
      have := (hstmf a ha).2
      simp [scoreKey, this]
    have hresfil : results.filter (fun x => decide (scoreKey x = (4 : ℚ)/5)) =
        stmL ++ ltL.filter (fun x => decide (scoreKey x = (4 : ℚ)/5)) := by
      rw [hresults, List.filter_append, hstmfil]
    have hPW0 : (stmL ++ ltL.filter (fun x => decide (scoreKey x = (4 : ℚ)/5))).Pairwise
        (fun a b => ¬(a.source = Source.long_term ∧ b.source = Source.short_term)) := by
      rw [List.pairwise_append]
      refine ⟨?_, ?_, ?_⟩
      · exact List.pairwise_of_forall_mem_list (fun a ha b _ hab => by
          rw [(hstmf a ha).1] at hab
          exact absurd hab.1 (by simp))
      · exact List.pairwise_of_forall_mem_list (fun a _ b hb hab => by
          have hbmem : b ∈ ltL := (List.mem_filter.mp hb).1
          rw [hltf b hbmem] at hab
          exact absurd hab.2 (by simp))
      · intro a ha b hb hab
        rw [(hstmf a ha).1] at hab
        exact absurd hab.1 (by simp)
    have hPW1 : ((results.insertionSort rDesc).filter
        (fun x => decide (scoreKey x = (4 : ℚ)/5))).Pairwise
        (fun a b => ¬(a.source = Source.long_term ∧ b.source = Source.short_term)) := by
      rw [hfil, hresfil]
      exact hPW0
    have hPW2 := pairwise_of_pairwise_filter hPW1
    have hPW3 : (results.insertionSort rDesc).Pairwise
        (fun a b => scoreKey a = scoreKey b →
          ¬(a.source = Source.long_term ∧ b.source = Source.short_term)) := by
      refine hPW2.imp_of_mem ?_
      intro a b ha hb hab hkey hcontra
      have hbmem : b ∈ results := (List.perm_insertionSort rDesc results).mem_iff.mp hb
      have hb45 : scoreKey b = (4 : ℚ)/5 := by
        rcases List.mem_append.mp hbmem with hbs | hbl
        · have := (hstmf b hbs).2
          simp [scoreKey, this]
        · rw [hltf b hbl] at hcontra
          exact absurd hcontra.2 (by simp)
      have ha45 : scoreKey a = (4 : ℚ)/5 := hkey.trans hb45
      exact hab (by simp [ha45]) (by simp [hb45]) hcontra
    rw [hmemdef]
    exact htake hPW3
  · intro r hr hsrc
    rw [hmemdef] at hr
    have h1 : r ∈ results.insertionSort rDesc := List.mem_of_mem_take hr
    have h2 : r ∈ results := (List.perm_insertionSort rDesc results).mem_iff.mp h1
    rcases List.mem_append.mp h2 with hs | hl
    · exact (hstmf r hs).2
    · rw [hltf r hl] at hsrc
      cases hsrc

/-! ### Lookup characterisations of the Redis operations -/

/-- Effect of `get_short_term` on the keyspace: an entry's counter is
bumped exactly when its key matches the pattern, and nothing else
changes. -/
theorem lookup_mapBump (full k : Str) :
    ∀ store : RedisStore,
      lookupKey k (store.map
          (fun kv => if globMatch full kv.1 = true then (kv.1, bumpEntry kv.2) else kv)) =
        (lookupKey k store).map
          (fun e => if globMatch full k = true then bumpEntry e else e) := by
  intro store
  induction store with
  | nil => rfl
  | cons kv rest ih =>
      obtain ⟨k0, e0⟩ := kv
      rw [List.map_cons]
      by_cases hg : globMatch full k0 = true
      · rw [if_pos hg]
        by_cases hk : k0 = k
        · subst hk
          simp [lookupKey, hg]
        · simp only [lookupKey, if_neg hk]
          exact ih
      · rw [if_neg hg]
        by_cases hk : k0 = k
        · subst hk
          simp [lookupKey, hg]
        · simp only [lookupKey, if_neg hk]
          exact ih

theorem lookup_getShortTerm (store : RedisStore) (pat k : Str) :
    lookupKey k (getShortTerm store pat).2 =
      (lookupKey k store).map
        (fun e => if globMatch (SHORT_TERM_NS ++ pat ++ ['*']) k = true then bumpEntry e
          else e) :=
  lookup_mapBump (SHORT_TERM_NS ++ pat ++ ['*']) k store

/-- A stored entry whose key matches the pattern is returned by
`get_short_term` with its counter already bumped. -/
theorem mem_getShortTerm_results {store : RedisStore} {pat k : Str} {e : StmEntry}
    (hmem : (k, e) ∈ store)
    (hg : globMatch (SHORT_TERM_NS ++ pat ++ ['*']) k = true) :
    bumpData e.data ∈ (getShortTerm store pat).1 := by
  simp only [getShortTerm, List.mem_map, List.mem_filter]
  exact ⟨(k, e), ⟨hmem, hg⟩, rfl⟩

/-- A stored entry whose key matches the pattern is present, bumped, in
the keyspace `get_short_term` leaves behind. -/
theorem mem_getShortTerm_store {store : RedisStore} {pat k : Str} {e : StmEntry}
    (hmem : (k, e) ∈ store)
    (hg : globMatch (SHORT_TERM_NS ++ pat ++ ['*']) k = true) :
    (k, bumpEntry e) ∈ (getShortTerm store pat).2 := by
  have hg' : globMatch (SHORT_TERM_NS ++ (pat ++ ['*'])) k = true := by
    rwa [← List.append_assoc]
  simp only [getShortTerm, List.mem_map]
  exact ⟨(k, e), hmem, by simp [hg']⟩

/-- Membership characterisation of the promotion scan. -/
theorem mem_getPromotable {store : RedisStore} {uid : Option Str} {r : PromotableRec} :
    r ∈ getPromotableMemories (some store) uid ↔
      ∃ e : StmEntry, (r.redis_key, e) ∈ store ∧ e.data = r.data ∧
        globMatch (SHORT_TERM_NS ++ pyOr uid ['*'] ++ [':', '*']) r.redis_key = true ∧
        PROMOTION_THRESHOLD ≤ r.data.access_count := by
  simp only [getPromotableMemories, List.mem_map, List.mem_filter]
  constructor
  · rintro ⟨⟨k, e⟩, ⟨hmem, hcond⟩, heq⟩
    rcases Bool.and_eq_true_iff.mp hcond with ⟨hg, hth⟩
    subst heq
    exact ⟨e, hmem, rfl, hg, by simpa using hth⟩
  · rintro ⟨e, hmem, hdata, hg, hth⟩
    have hg' : globMatch (SHORT_TERM_NS ++ (pyOr uid ['*'] ++ [':', '*'])) r.redis_key = true := by
      rwa [← List.append_assoc]
    refine ⟨(r.redis_key, e), ⟨hmem, by simp [hg', hdata, hth]⟩, ?_⟩
    cases r
    simp at hdata
    simp [hdata]

/-- The full Redis key laid down by the add path:
`stm:<owner>:<timestamp>:<digest>` (lines 309, 430). -/
def mkStmKey (owner ts dig : Str) : Str :=
  SHORT_TERM_NS ++ owner ++ ':' :: ts ++ ':' :: dig

theorem ns_chars : '*' ∉ SHORT_TERM_NS ∧ '?' ∉ SHORT_TERM_NS ∧ ':' ∈ SHORT_TERM_NS := by
  decide

/-- The promotion-scan pattern for a concrete owner matches a well-formed
key exactly when the owners agree (owner ids free of `:`, `*`, `?`). -/
theorem promotePattern_matches_iff {u u' ts dig : Str}
    (hu : ':' ∉ u ∧ '*' ∉ u ∧ '?' ∉ u) (hu' : ':' ∉ u') :
    globMatch (SHORT_TERM_NS ++ u ++ [':', '*']) (mkStmKey u' ts dig) = true ↔ u = u' := by
  have hlit : SHORT_TERM_NS ++ u ++ [':', '*'] = (SHORT_TERM_NS ++ u ++ [':']) ++ ['*'] := by
    simp
  have hstar : '*' ∉ SHORT_TERM_NS ++ u ++ [':'] := by
    intro hmem
    rcases List.mem_append.mp hmem with hmem2 | hmem2
    · rcases List.mem_append.mp hmem2 with h3 | h3
      · exact ns_chars.1 h3
      · exact hu.2.1 h3
    · simp at hmem2
  have hq : '?' ∉ SHORT_TERM_NS ++ u ++ [':'] := by
    intro hmem
    rcases List.mem_append.mp hmem with hmem2 | hmem2
    · rcases List.mem_append.mp hmem2 with h3 | h3
      · exact ns_chars.2.1 h3
      · exact hu.2.2 h3
    · simp at hmem2
  rw [hlit, globMatch_append_star_iff _ hstar hq]
  have hkey : mkStmKey u' ts dig = SHORT_TERM_NS ++ (u' ++ ':' :: (ts ++ ':' :: dig)) := by
    simp [mkStmKey]
  have hpat : SHORT_TERM_NS ++ u ++ [':'] = SHORT_TERM_NS ++ (u ++ [':']) := by
    simp
  rw [hkey, hpat, List.prefix_append_right_inj]
  constructor
  · exact fun h => owner_eq_of_prefix hu.1 hu' h
  · rintro rfl
    exact ⟨ts ++ ':' :: dig, by simp⟩

/-- The all-owners promotion-scan pattern `stm:*:*` matches every
well-formed key. -/
theorem promotePattern_star_matches (u' ts dig : Str) :
    globMatch (SHORT_TERM_NS ++ ['*'] ++ [':', '*']) (mkStmKey u' ts dig) = true := by
  have hkey : mkStmKey u' ts dig = SHORT_TERM_NS ++ (u' ++ ':' :: (ts ++ ':' :: dig)) := by
    simp [mkStmKey]
  have hpat : SHORT_TERM_NS ++ ['*'] ++ [':', '*'] = SHORT_TERM_NS ++ ('*' :: [':', '*']) := by
    simp
  rw [hkey, hpat, globMatch_lit_append _ _ ns_chars.1]
  refine globMatch_star_drop u' ?_
  rw [globMatch_star_cons]
  have h1 : globMatch [':', '*'] (':' :: (ts ++ ':' :: dig)) = true := by
    rw [globMatch_lit_cons _ _ _ (by decide)]
    simp [globMatch_star_any]
  simp [h1]

/-- Claim C3: the eligibility scan selects a well-formed ephemeral entry
iff its `access_count` is at least the fixed promotion threshold 3, among
the entries of the requested owner (all entries when no owner is given). -/
theorem C3_promotable_iff (store : RedisStore) (uid : Option Str)
    (u' ts dig : Str) (e : StmEntry)
    (hmem : (mkStmKey u' ts dig, e) ∈ store)
    (hu' : ':' ∉ u')
    (hclean : ∀ u, uid = some u → ':' ∉ u ∧ '*' ∉ u ∧ '?' ∉ u ∧ u ≠ []) :
    ((⟨e.data, mkStmKey u' ts dig⟩ : PromotableRec) ∈
        getPromotableMemories (some store) uid ↔
      (3 ≤ e.data.access_count ∧ ∀ u, uid = some u → u = u')) := by
  rw [mem_getPromotable]
  cases uid with
  | none =>
      simp only [pyOr]
      constructor
      · rintro ⟨e0, _, _, _, hth⟩
        exact ⟨by simpa [PROMOTION_THRESHOLD] using hth, by intro u hu; cases hu⟩
      · rintro ⟨hth, -⟩
        exact ⟨e, hmem, rfl, promotePattern_star_matches u' ts dig,
          by simpa [PROMOTION_THRESHOLD] using hth⟩
  | some u =>
      obtain ⟨hc1, hc2, hc3, hc4⟩ := hclean u rfl
      have hpy : pyOr (some u) ['*'] = u := by simp [pyOr, hc4]
      rw [hpy]
      constructor
      · rintro ⟨e0, _, _, hg, hth⟩
        refine ⟨by simpa [PROMOTION_THRESHOLD] using hth, ?_⟩
        intro v hv
        cases hv
        exact (promotePattern_matches_iff ⟨hc1, hc2, hc3⟩ hu').mp hg
      · rintro ⟨hth, huv⟩
        exact ⟨e, hmem, rfl,
          (promotePattern_matches_iff ⟨hc1, hc2, hc3⟩ hu').mpr (huv u rfl),
          by simpa [PROMOTION_THRESHOLD] using hth⟩

/-! ### Closed forms for the promotion loop -/

/-- Whether the loop, started at call index `n` over the listed records,
deletes the key `k`: some record carries that (non-empty) key and its
engine call succeeds. -/
def hits (beh : EngineBeh) : Nat → List PromotableRec → Str → Bool
  | _, [], _ => false
  | n, m :: ms, k =>
      (okB (beh n (stmEngineReq m.data)) && (m.redis_key == k) && !m.redis_key.isEmpty)
        || hits beh (n + 1) ms k

/-- The per-record outcomes the loop accumulates: one item per successful
engine call, in batch order. -/
def succItems (beh : EngineBeh) : Nat → List PromotableRec → List PromotedItem
  | _, [] => []
  | n, m :: ms =>
      match beh n (stmEngineReq m.data) with
      | .ok r => ⟨m.redis_key, r⟩ :: succItems beh (n + 1) ms
      | .error _ => succItems beh (n + 1) ms

/-- The records the durable tier retains: one per successful engine call. -/
def succReqs (beh : EngineBeh) : Nat → List PromotableRec → List EngineReq
  | _, [] => []
  | n, m :: ms =>
      match beh n (stmEngineReq m.data) with
      | .ok _ => stmEngineReq m.data :: succReqs beh (n + 1) ms
      | .error _ => succReqs beh (n + 1) ms

theorem promoteLoop_cons_ok {beh : EngineBeh} {m : PromotableRec}
    {rest : List PromotableRec} {redis : Option RedisStore} {eng : EngineState}
    {acc : List PromotedItem} {r : LtResult}
    (hbeh : beh eng.calls (stmEngineReq m.data) = .ok r) :
    promoteLoop beh (m :: rest) redis eng acc =
      promoteLoop beh rest
        (if redis.isSome && !m.redis_key.isEmpty then redis.map (deleteKey m.redis_key)
         else redis)
        ⟨eng.added ++ [stmEngineReq m.data], eng.calls + 1⟩
        (acc ++ [⟨m.redis_key, r⟩]) := by
  simp [promoteLoop, engineAdd, hbeh]

theorem promoteLoop_cons_err {beh : EngineBeh} {m : PromotableRec}
    {rest : List PromotableRec} {redis : Option RedisStore} {eng : EngineState}
    {acc : List PromotedItem} {err : Str}
    (hbeh : beh eng.calls (stmEngineReq m.data) = .error err) :
    promoteLoop beh (m :: rest) redis eng acc =
      promoteLoop beh rest redis ⟨eng.added, eng.calls + 1⟩ acc := by
  simp [promoteLoop, engineAdd, hbeh]

/-- The loop reports exactly the per-record outcomes of the successful
engine calls, appended to the accumulator in batch order. -/
theorem promoteLoop_items (beh : EngineBeh) :
    ∀ (ms : List PromotableRec) (redis : Option RedisStore) (eng : EngineState)
      (acc : List PromotedItem),
      (promoteLoop beh ms redis eng acc).2.2 = acc ++ succItems beh eng.calls ms := by
  intro ms
  induction ms with
  | nil => intro redis eng acc; simp [promoteLoop, succItems]
  | cons m rest ih =>
      intro redis eng acc
      cases hbeh : beh eng.calls (stmEngineReq m.data) with
      | ok r =>
          rw [promoteLoop_cons_ok hbeh, ih]
          simp [succItems, hbeh]
      | error err =>
          rw [promoteLoop_cons_err hbeh, ih]
          simp [succItems, hbeh]

/-- The loop gives every record exactly one engine call and retains
exactly the successful records in the durable tier, without rolling back
earlier ones. -/
theorem promoteLoop_engine (beh : EngineBeh) :
    ∀ (ms : List PromotableRec) (redis : Option RedisStore) (eng : EngineState)
      (acc : List PromotedItem),
      (promoteLoop beh ms redis eng acc).2.1 =
        ⟨eng.added ++ succReqs beh eng.calls ms, eng.calls + ms.length⟩ := by
  intro ms
  induction ms with
  | nil => intro redis eng acc; cases eng; simp [promoteLoop, succReqs]
  | cons m rest ih =>
      intro redis eng acc
      cases hbeh : beh eng.calls (stmEngineReq m.data) with
      | ok r =>
          rw [promoteLoop_cons_ok hbeh, ih]
          simp only [succReqs, hbeh, EngineState.mk.injEq, List.length_cons]
          exact ⟨by simp, by omega⟩
      | error err =>
          rw [promoteLoop_cons_err hbeh, ih]
          simp only [succReqs, hbeh, EngineState.mk.injEq, List.length_cons]
          exact ⟨trivial, by omega⟩

/-- The loop's effect on the keyspace: a key is gone afterwards exactly
when some record carried it and its engine call succeeded; all other keys
are untouched. -/
theorem promoteLoop_redis (beh : EngineBeh) :
    ∀ (ms : List PromotableRec) (store : RedisStore) (eng : EngineState)
      (acc : List PromotedItem),
      ∃ store',
        (promoteLoop beh ms (some store) eng acc).1 = some store' ∧
        ∀ k, lookupKey k store' =
          if hits beh eng.calls ms k = true then none else lookupKey k store := by
  intro ms
  induction ms with
  | nil =>
      intro store eng acc
      exact ⟨store, rfl, fun k => by simp [hits]⟩
  | cons m rest ih =>
      intro store eng acc
      cases hbeh : beh eng.calls (stmEngineReq m.data) with
      | ok r =>
          by_cases hkey : m.redis_key.isEmpty = true
          · obtain ⟨store', h1, h2⟩ :=
              ih store ⟨eng.added ++ [stmEngineReq m.data], eng.calls + 1⟩
                (acc ++ [⟨m.redis_key, r⟩])
            refine ⟨store', ?_, ?_⟩
            · rw [promoteLoop_cons_ok hbeh]
              simpa [hkey] using h1
            · intro k
              rw [h2 k]
              have hok : okB (beh eng.calls (stmEngineReq m.data)) = true := by
                simp [okB, hbeh]
              simp [hits, hok, hkey]
          · obtain ⟨store', h1, h2⟩ :=
              ih (deleteKey m.redis_key store)
                ⟨eng.added ++ [stmEngineReq m.data], eng.calls + 1⟩
                (acc ++ [⟨m.redis_key, r⟩])
            refine ⟨store', ?_, ?_⟩
            · rw [promoteLoop_cons_ok hbeh]
              simpa [hkey] using h1
            · intro k
              rw [h2 k]
              have hok : okB (beh eng.calls (stmEngineReq m.data)) = true := by
                simp [okB, hbeh]
              by_cases hrest : hits beh (eng.calls + 1) rest k = true
              · simp [hits, hrest]
              · rw [lookup_deleteKey]
                by_cases hk : k = m.redis_key
                · subst hk
                  simp [hits, hok, hkey, hrest]
                · have hk3 : m.redis_key ≠ k := fun hh => hk hh.symm
                  have hk2 : (m.redis_key == k) = false := by simpa using hk3
                  simp [hits, hrest, hk, hk2]
      | error err =>
          obtain ⟨store', h1, h2⟩ := ih store ⟨eng.added, eng.calls + 1⟩ acc
          refine ⟨store', ?_, ?_⟩
          · rw [promoteLoop_cons_err hbeh]
            exact h1
          · intro k
            rw [h2 k]
            have hok : okB (beh eng.calls (stmEngineReq m.data)) = false := by
              simp [okB, hbeh]
            simp [hits, hok]

theorem hits_not_mem (beh : EngineBeh) :
    ∀ (ms : List PromotableRec) (n : Nat) (k : Str),
      (∀ m ∈ ms, m.redis_key ≠ k) → hits beh n ms k = false := by
  intro ms
  induction ms with
  | nil => intro n k _; simp [hits]
  | cons m rest ih =>
      intro n k h
      have hm : m.redis_key ≠ k := h m (List.mem_cons_self m rest)
      have hm2 : (m.redis_key == k) = false := by simpa using hm
      simp only [hits, hm2, Bool.and_false, Bool.false_and, Bool.false_or]
      exact ih (n + 1) k (fun m' hm' => h m' (List.mem_cons_of_mem m hm'))

/-- When keys are pairwise distinct, whether the loop deletes a given
record's key is decided exactly by that record's own engine call. -/
theorem hits_decomp (beh : EngineBeh) (pre : List PromotableRec) (m : PromotableRec)
    (post : List PromotableRec) :
    ∀ n : Nat, ((pre ++ m :: post).map PromotableRec.redis_key).Nodup →
      hits beh n (pre ++ m :: post) m.redis_key =
        (okB (beh (n + pre.length) (stmEngineReq m.data)) && !m.redis_key.isEmpty) := by
  induction pre with
  | nil =>
      intro n hnd
      simp only [List.nil_append, List.map_cons, List.nodup_cons] at hnd
      have hpost : hits beh (n + 1) post m.redis_key = false := by
        refine hits_not_mem beh post (n + 1) m.redis_key ?_
        intro m' hm' hk
        exact hnd.1 (hk ▸ List.mem_map_of_mem PromotableRec.redis_key hm')
      simp [hits, hpost]
  | cons p pre' ih =>
      intro n hnd
      simp only [List.cons_append, List.map_cons, List.nodup_cons] at hnd
      have hp : p.redis_key ≠ m.redis_key := by
        intro hk
        exact hnd.1 (hk ▸ List.mem_map_of_mem PromotableRec.redis_key
          (by simp : m ∈ pre' ++ m :: post))
      have hp2 : (p.redis_key == m.redis_key) = false := by simpa using hp
      simp only [hits, hp2, Bool.and_false, Bool.false_and, Bool.false_or, List.append_eq]
      rw [ih (n + 1) hnd.2]
      have harith : n + 1 + pre'.length = n + (p :: pre').length := by
        simp only [List.length_cons]
        omega
      rw [harith]

/-- Distinct store keys give distinct keys in the promotion scan. -/
theorem getPromotable_keys_nodup {store : RedisStore} {uid : Option Str}
    (h : (store.map Prod.fst).Nodup) :
    ((getPromotableMemories (some store) uid).map PromotableRec.redis_key).Nodup := by
  have hdef : (getPromotableMemories (some store) uid).map PromotableRec.redis_key =
      (store.filter (fun kv =>
        globMatch (SHORT_TERM_NS ++ pyOr uid ['*'] ++ [':', '*']) kv.1 &&
          decide (PROMOTION_THRESHOLD ≤ kv.2.data.access_count))).map Prod.fst := by
    simp [getPromotableMemories, List.map_map]
  rw [hdef]
  exact h.sublist ((List.filter_sublist store).map Prod.fst)

/-- Every scanned key begins with the `stm:` namespace, hence is
non-empty. -/
theorem getPromotable_key_ne_nil {store : RedisStore} {uid : Option Str}
    {r : PromotableRec} (h : r ∈ getPromotableMemories (some store) uid) :
    r.redis_key ≠ [] := by
  rcases mem_getPromotable.mp h with ⟨e, _, _, hg, _⟩
  have hshape : SHORT_TERM_NS ++ pyOr uid ['*'] ++ [':', '*'] =
      's' :: ("tm:".toList ++ pyOr uid ['*'] ++ [':', '*']) := by
    have : SHORT_TERM_NS = 's' :: "tm:".toList := by decide
    simp [this]
  rw [hshape] at hg
  exact ne_nil_of_globMatch (by decide) hg

/-- With pairwise-distinct keys the lookup of a stored binding succeeds. -/
theorem lookup_of_mem_nodup {k : Str} {e : StmEntry} :
    ∀ {store : RedisStore}, (store.map Prod.fst).Nodup → (k, e) ∈ store →
      lookupKey k store = some e := by
  intro store
  induction store with
  | nil => intro _ hmem; cases hmem
  | cons kv rest ih =>
      obtain ⟨k0, e0⟩ := kv
      intro hnd hmem
      simp only [List.map_cons, List.nodup_cons] at hnd
      rcases List.mem_cons.mp hmem with heq | hrest
      · cases heq
        simp [lookupKey]
      · have hk : k0 ≠ k := by
          intro hkk
          exact hnd.1 (hkk ▸ List.mem_map_of_mem Prod.fst hrest)
        simp only [lookupKey, if_neg hk]
        exact ih hnd.2 hrest

/-- Claim C2: in a promotion batch over a keyspace with distinct keys,
each scanned record is deleted from the ephemeral store iff its own
durable `add` call succeeded; when that call raises, the entry is left
unchanged and the next eligibility scan still returns the record. -/
theorem C2_promotion_move (beh : EngineBeh) (req : PromoteRequest)
    (store : RedisStore) (eng : EngineState)
    (hnd : (store.map Prod.fst).Nodup)
    (m : PromotableRec) (pre post : List PromotableRec)
    (hdecomp : getPromotableMemories (some store) req.user_id = pre ++ m :: post) :
    ∃ store',
      (promoteMemories beh req ⟨some store, some eng⟩).2.redis = some store' ∧
      (lookupKey m.redis_key store' = none ↔
        okB (beh (eng.calls + pre.length) (stmEngineReq m.data)) = true) ∧
      (okB (beh (eng.calls + pre.length) (stmEngineReq m.data)) = false →
        lookupKey m.redis_key store' = lookupKey m.redis_key store ∧
        m ∈ getPromotableMemories (some store') req.user_id) := by
  have hmemm : m ∈ getPromotableMemories (some store) req.user_id := by
    rw [hdecomp]; simp
  obtain ⟨store', h1, h2⟩ :=
    promoteLoop_redis beh (getPromotableMemories (some store) req.user_id) store eng []
  have hkeysnd : ((getPromotableMemories (some store) req.user_id).map
      PromotableRec.redis_key).Nodup := getPromotable_keys_nodup hnd
  have hkne : m.redis_key ≠ [] := getPromotable_key_ne_nil hmemm
  have hkemp : m.redis_key.isEmpty = false := by
    cases hmk : m.redis_key with
    | nil => exact absurd hmk hkne
    | cons c cs => simp
  rw [hdecomp] at hkeysnd
  have hhits := hits_decomp beh pre m post eng.calls hkeysnd
  rw [hkemp] at hhits
  have h2m := h2 m.redis_key
  rw [hdecomp, hhits] at h2m
  simp only [Bool.not_false, Bool.and_true] at h2m
  rcases mem_getPromotable.mp hmemm with ⟨e, hmem, hdata, hg, hth⟩
  have hlook : lookupKey m.redis_key store = some e := lookup_of_mem_nodup hnd hmem
  have hredis : (promoteMemories beh req ⟨some store, some eng⟩).2.redis =
      (promoteLoop beh (getPromotableMemories (some store) req.user_id)
        (some store) eng []).1 := rfl
  refine ⟨store', by rw [hredis]; exact h1, ?_, ?_⟩
  · constructor
    · intro hnone
      by_contra hok
      rw [Bool.not_eq_true] at hok
      rw [hok] at h2m
      simp only [if_neg (by simp : ¬false = true)] at h2m
      rw [h2m, hlook] at hnone
      cases hnone
    · intro hok
      rw [hok] at h2m
      simpa using h2m
  · intro hfail
    rw [hfail] at h2m
    simp only [if_neg (by simp : ¬false = true)] at h2m
    refine ⟨h2m, ?_⟩
    rw [mem_getPromotable]
    refine ⟨e, ?_, hdata, hg, hth⟩
    rw [← h2m] at hlook
    exact mem_of_lookup hlook

/-! ### Concrete sample data for witnesses and counterexamples -/

/-- Sample message. -/
def msgTea : Message := ⟨"user".toList, "I like tea".toList⟩

/-- Sample stored document for an owner with a given access count. -/
def dataU (owner : Str) (n : Nat) : StmData :=
  ⟨[msgTea], some owner, none, none, none, "T".toList, n⟩

/-- Sample Redis entry. -/
def entryU (owner : Str) (n : Nat) : StmEntry := ⟨dataU owner n, 24⟩

/-- Sample well-formed keys for owner `u`. -/
def keyA : Str := mkStmKey "u".toList "1".toList "a".toList

/-- Second sample key for owner `u`. -/
def keyB : Str := mkStmKey "u".toList "2".toList "b".toList

/-- Engine behaviour that accepts every call. -/
def behOk : EngineBeh := fun _ _ => .ok "res".toList

/-- Engine behaviour that rejects every call. -/
def behFail : EngineBeh := fun _ _ => .error "err".toList

/-- Engine behaviour that accepts the first call and rejects the rest. -/
def behFailSecond : EngineBeh := fun n _ =>
  if n = 0 then .ok "res".toList else .error "err".toList

/-- The successful payload of a promote call, if any. -/
def promotedOf : Except HErr PromoteResponse → Option PromoteResponse
  | .ok r => some r
  | .error _ => none

/-- The raised error of a promote call, if any. -/
def errOf : Except HErr PromoteResponse → Option HErr
  | .ok _ => none
  | .error e => some e

/-- Claim C7: a promote request issued while the durable engine was never
initialised fails with a 503 service-unavailable condition and leaves the
whole state — in particular every ephemeral entry — unchanged. -/
theorem C7_promote_engine_uninitialized (beh : EngineBeh) (req : PromoteRequest)
    (redis : Option RedisStore) :
    promoteMemories beh req ⟨redis, none⟩ =
      (.error ⟨503, "Long-term memory not initialized".toList⟩, ⟨redis, none⟩) := rfl

/-- Claim C8 (code bug): `promote_memories` never reads the request's
`memory_ids`.  Here a promote request explicitly listing only the id
`zzz` still promotes the eligible record under `keyA` (which is not
listed) and deletes it from the ephemeral store, contradicting the
declared meaning of `memory_ids` ("Specific IDs, or None for all
eligible", line 288). -/
theorem C8_memory_ids_ignored :
    (promoteMemories behOk ⟨some ["zzz".toList], none, none⟩
        ⟨some [(keyA, entryU "u".toList 3)], some ⟨[], 0⟩⟩).2.redis = some [] ∧
    promotedOf (promoteMemories behOk ⟨some ["zzz".toList], none, none⟩
        ⟨some [(keyA, entryU "u".toList 3)], some ⟨[], 0⟩⟩).1 =
      some ⟨1, [⟨keyA, "res".toList⟩]⟩ := by
  decide

/-- Claim C9, counterexample: the promote response does not report the
count of failed records.  A two-record batch whose second durable write
fails and a one-record batch with no failure produce identical responses,
so no field of the response (which carries only `promoted_count` and the
per-record outcomes of successes) can reflect the number of failures. -/
theorem C9_counterexample :
    promotedOf (promoteMemories behFailSecond ⟨none, none, none⟩
        ⟨some [(keyA, entryU "u".toList 3), (keyB, entryU "u".toList 3)],
         some ⟨[], 0⟩⟩).1 =
      promotedOf (promoteMemories behOk ⟨none, none, none⟩
        ⟨some [(keyA, entryU "u".toList 3)], some ⟨[], 0⟩⟩).1 ∧
    (getPromotableMemories
      (some [(keyA, entryU "u".toList 3), (keyB, entryU "u".toList 3)]) none).length = 2 ∧
    (getPromotableMemories (some [(keyA, entryU "u".toList 3)]) none).length = 1 ∧
    promotedOf (promoteMemories behOk ⟨none, none, none⟩
        ⟨some [(keyA, entryU "u".toList 3)], some ⟨[], 0⟩⟩).1 =
      some ⟨1, [⟨keyA, "res".toList⟩]⟩ := by
  decide

/-- Claim C9 as amended: a promotion batch with failures still processes
every record (each gets exactly one engine call, failures abort nothing),
reports the count and per-record outcomes of the successful promotions
only, and retains all successful durable writes — failed records are
skipped silently and prior successes are never rolled back. -/
theorem C9_batch_reports_successes (beh : EngineBeh) (req : PromoteRequest)
    (store : RedisStore) (eng : EngineState) :
    ∃ resp, (promoteMemories beh req ⟨some store, some eng⟩).1 = Except.ok resp ∧
      resp.promoted =
        succItems beh eng.calls (getPromotableMemories (some store) req.user_id) ∧
      resp.promoted_count =
        (succItems beh eng.calls (getPromotableMemories (some store) req.user_id)).length ∧
      (promoteMemories beh req ⟨some store, some eng⟩).2.engine =
        some ⟨eng.added ++
                succReqs beh eng.calls (getPromotableMemories (some store) req.user_id),
              eng.calls +
                (getPromotableMemories (some store) req.user_id).length⟩ := by
  have hitems := promoteLoop_items beh (getPromotableMemories (some store) req.user_id)
    (some store) eng []
  have hengine := promoteLoop_engine beh (getPromotableMemories (some store) req.user_id)
    (some store) eng []
  refine ⟨_, rfl, ?_, ?_, ?_⟩
  · simpa using hitems
  · have := congrArg List.length hitems
    simpa using this
  · show some _ = some _
    rw [hengine]

/-- Claim C5: an add request with `short_term_only = true` never invokes
the durable engine — the durable tier (its records and its call counter)
is unchanged — and the response reports `long_term = false` (with no
engine result). -/
theorem C5_short_term_only (beh : EngineBeh) (req : AddMemoryRequest)
    (now dig : Str) (redisFails : Bool) (st : SysState)
    (h : req.short_term_only = true) :
    (addMemory beh req now dig redisFails st).1.long_term = false ∧
    (addMemory beh req now dig redisFails st).1.result = none ∧
    (addMemory beh req now dig redisFails st).2.engine = st.engine := by
  simp [addMemory, h]

/-- Claim C6: every add request yields a non-raised response with
`success = true`; the ephemeral flag is `false` exactly when the Redis
write failed (client absent or the write raised), and the durable flag is
`true` exactly when the durable path was taken and its `add` returned
normally. -/
theorem C6_add_reports_flags (beh : EngineBeh) (req : AddMemoryRequest)
    (now dig : Str) (redisFails : Bool) (st : SysState) :
    (addMemory beh req now dig redisFails st).1.success = true ∧
    ((addMemory beh req now dig redisFails st).1.short_term = false ↔
      st.redis = none ∨ redisFails = true) ∧
    ((addMemory beh req now dig redisFails st).1.long_term = true ↔
      req.short_term_only = false ∧ ∃ eng, st.engine = some eng ∧
        okB (beh eng.calls (addEngineReq req)) = true) := by
  refine ⟨rfl, ?_, ?_⟩
  · cases hred : st.redis with
    | none => simp [addMemory, storeShortTerm, hred]
    | some store =>
        cases hrf : redisFails with
        | false => simp [addMemory, storeShortTerm, hred, hrf]
        | true => simp [addMemory, storeShortTerm, hred, hrf]
  · cases hst : req.short_term_only with
    | true => simp [addMemory, hst]
    | false =>
        cases heng : st.engine with
        | none => simp [addMemory, hst, heng]
        | some eng =>
            cases hbeh : beh eng.calls (addEngineReq req) with
            | ok r =>
                simp only [addMemory, hst, heng, engineAdd, hbeh]
                simp [okB, hbeh]
            | error err =>
                simp only [addMemory, hst, heng, engineAdd, hbeh]
                simp [okB, hbeh]

/-- Claim C4: `access_count` starts at 0 at creation; a `get_short_term`
call bumps exactly the matched entries by exactly 1 and touches nothing
else; and no read, search, user-retrieval or promotion ever decreases a
stored counter (promotion only deletes entries or leaves them intact). -/
theorem C4_access_count (store : RedisStore) :
    (∀ (key : Str) (p : StmPayload) (now : Str) (ttl : Nat),
      (storeShortTerm (some store) false key p now ttl).1 = true ∧
      (∀ store'', (storeShortTerm (some store) false key p now ttl).2 = some store'' →
        lookupKey (SHORT_TERM_NS ++ key) store'' = some ⟨mkStmData p now, ttl⟩ ∧
        (mkStmData p now).access_count = 0 ∧
        ∀ k, k ≠ SHORT_TERM_NS ++ key → lookupKey k store'' = lookupKey k store)) ∧
    (∀ (pat k : Str) (e : StmEntry), lookupKey k store = some e →
      lookupKey k (getShortTerm store pat).2 =
        some (if globMatch (SHORT_TERM_NS ++ pat ++ ['*']) k = true then bumpEntry e
          else e) ∧
      (bumpEntry e).data.access_count = e.data.access_count + 1) ∧
    (∀ (pat k : Str) (e e' : StmEntry), lookupKey k store = some e →
      lookupKey k (getShortTerm store pat).2 = some e' →
      e.data.access_count ≤ e'.data.access_count) ∧
    (∀ (beh : EngineBeh) (req : PromoteRequest) (eng : EngineState) (k : Str)
      (e' : StmEntry) (store' : RedisStore),
      (promoteMemories beh req ⟨some store, some eng⟩).2.redis = some store' →
      lookupKey k store' = some e' → lookupKey k store = some e') ∧
    (∀ (req : SearchRequest) (lt : Option (Except Str (List LtSearchItem)))
      (k : Str) (e e' : StmEntry) (store' : RedisStore),
      (searchMemories req (some store) lt).2 = some store' →
      lookupKey k store = some e → lookupKey k store' = some e' →
      e.data.access_count ≤ e'.data.access_count) ∧
    (∀ (u : Str) (incl : Bool) (ltAll : Option (Except Str (List Str)))
      (k : Str) (e e' : StmEntry) (store' : RedisStore),
      (getUserMemories u incl (some store) ltAll).2 = some store' →
      lookupKey k store = some e → lookupKey k store' = some e' →
      e.data.access_count ≤ e'.data.access_count) := by
  have hget : ∀ (pat k : Str) (e : StmEntry), lookupKey k store = some e →
      lookupKey k (getShortTerm store pat).2 =
        some (if globMatch (SHORT_TERM_NS ++ pat ++ ['*']) k = true then bumpEntry e
          else e) := by
    intro pat k e he
    rw [lookup_getShortTerm, he]
    rfl
  have hgetle : ∀ (pat k : Str) (e e' : StmEntry), lookupKey k store = some e →
      lookupKey k (getShortTerm store pat).2 = some e' →
      e.data.access_count ≤ e'.data.access_count := by
    intro pat k e e' he he'
    rw [hget pat k e he] at he'
    by_cases hg : globMatch (SHORT_TERM_NS ++ pat ++ ['*']) k = true
    · rw [if_pos hg] at he'
      cases he'
      simp [bumpEntry, bumpData]
    · rw [if_neg hg] at he'
      cases he'
      exact le_refl _
  refine ⟨?_, ?_, hgetle, ?_, ?_, ?_⟩
  · intro key p now ttl
    refine ⟨rfl, ?_⟩
    intro store'' hs
    have hs' : store'' = setKey (SHORT_TERM_NS ++ key) ⟨mkStmData p now, ttl⟩ store := by
      simpa [storeShortTerm] using hs.symm
    subst hs'
    exact ⟨lookup_setKey_self _ _ _, rfl,
      fun k hk => lookup_setKey_ne _ k _ store hk⟩
  · intro pat k e he
    exact ⟨hget pat k e he, by simp [bumpEntry, bumpData]⟩
  · intro beh req eng k e' store' hred hl
    obtain ⟨store0, h1, h2⟩ :=
      promoteLoop_redis beh (getPromotableMemories (some store) req.user_id) store eng []
    have hred' : (promoteMemories beh req ⟨some store, some eng⟩).2.redis =
        (promoteLoop beh (getPromotableMemories (some store) req.user_id)
          (some store) eng []).1 := rfl
    rw [hred', h1] at hred
    cases hred
    rw [h2 k] at hl
    by_cases hh : hits beh eng.calls (getPromotableMemories (some store) req.user_id) k = true
    · rw [if_pos hh] at hl
      cases hl
    · rwa [if_neg hh] at hl
  · intro req lt k e e' store' hs he he'
    have hs2 : (searchMemories req (some store) lt).2 = (searchStmMatches req (some store)).2 := rfl
    rw [hs2] at hs
    unfold searchStmMatches at hs
    by_cases hcond : (req.include_short_term && (some store : Option RedisStore).isSome) = true
    · rw [if_pos hcond] at hs
      simp only [getShortTermOpt] at hs
      have : store' = (getShortTerm store (pyOr req.user_id ['*'])).2 := by
        cases hs
        rfl
      subst this
      exact hgetle _ k e e' he he'
    · rw [if_neg hcond] at hs
      cases hs
      rw [he] at he'
      cases he'
      exact le_refl _
  · intro u incl ltAll k e e' store' hs he he'
    have hs2 : (getUserMemories u incl (some store) ltAll).2 =
        (if incl then ((getShortTermOpt (some store) u).1.map (mkUserShortItem u),
          (getShortTermOpt (some store) u).2) else ([], some store)).2 := rfl
    rw [hs2] at hs
    cases hincl : incl with
    | true =>
        rw [hincl] at hs
        simp only [if_pos rfl, getShortTermOpt] at hs
        have : store' = (getShortTerm store u).2 := by
          cases hs
          rfl
        subst this
        exact hgetle _ k e e' he he'
    | false =>
        rw [hincl] at hs
        simp only [if_neg (by simp : ¬(false = true))] at hs
        cases hs
        rw [he] at he'
        cases he'
        exact le_refl _

/-- Claim C10: the ephemeral reads behind search and get-by-user scan with
the raw owner id (`stm:<owner>*`, no trailing separator), so when one
owner id is a string prefix of another, a read scoped to the shorter id
matches — returns, and bumps the access counter of — the longer owner's
entries; the promotion scan instead appends `:` (`stm:<owner>:*`) and
matches the owner exactly. -/
theorem C10_owner_prefix_aliasing (u u' ts dig : Str) (store : RedisStore)
    (e : StmEntry)
    (hpre : u <+: u')
    (hu : '*' ∉ u ∧ '?' ∉ u)
    (hmem : (mkStmKey u' ts dig, e) ∈ store) :
    globMatch (SHORT_TERM_NS ++ u ++ ['*']) (mkStmKey u' ts dig) = true ∧
    bumpData e.data ∈ (getShortTerm store u).1 ∧
    (mkStmKey u' ts dig, bumpEntry e) ∈ (getShortTerm store u).2 ∧
    mkUserShortItem u (bumpData e.data) ∈
      (getUserMemories u true (some store) none).1.memories ∧
    (':' ∉ u → ':' ∉ u' →
      (globMatch (SHORT_TERM_NS ++ u ++ [':', '*']) (mkStmKey u' ts dig) = true ↔
        u = u')) := by
  have hstar : '*' ∉ SHORT_TERM_NS ++ u := by
    intro hmem2
    rcases List.mem_append.mp hmem2 with h3 | h3
    · exact ns_chars.1 h3
    · exact hu.1 h3
  have hq : '?' ∉ SHORT_TERM_NS ++ u := by
    intro hmem2
    rcases List.mem_append.mp hmem2 with h3 | h3
    · exact ns_chars.2.1 h3
    · exact hu.2 h3
  have hglob : globMatch (SHORT_TERM_NS ++ u ++ ['*']) (mkStmKey u' ts dig) = true := by
    have hshape : SHORT_TERM_NS ++ u ++ ['*'] = (SHORT_TERM_NS ++ u) ++ ['*'] := rfl
    rw [hshape, globMatch_append_star_iff _ hstar hq]
    have hkey : mkStmKey u' ts dig = SHORT_TERM_NS ++ (u' ++ ':' :: (ts ++ ':' :: dig)) := by
      simp [mkStmKey]
    rw [hkey]
    rw [List.prefix_append_right_inj]
    exact hpre.trans (List.prefix_append u' _)
  have hres := mem_getShortTerm_results hmem hglob
  refine ⟨hglob, hres, mem_getShortTerm_store hmem hglob, ?_, ?_⟩
  · simp only [getUserMemories, getShortTermOpt, if_pos rfl]
    refine List.mem_append.mpr (Or.inl ?_)
    exact List.mem_map_of_mem (mkUserShortItem u) hres
  · intro hcu hcu'
    exact promotePattern_matches_iff ⟨hcu, hu.1, hu.2⟩ hcu'

/-! ### Witnesses: the theorems with hypotheses, applied at concrete
inputs -/

theorem C1_search_merge_witness :
    (searchMemories ⟨"tea".toList, some "u1".toList, none, none, 10, true⟩
        (some [(keyA, entryU "u".toList 0)]) none).1.memories.length ≤ 10 :=
  (C1_search_merge ⟨"tea".toList, some "u1".toList, none, none, 10, true⟩
    (some [(keyA, entryU "u".toList 0)]) none).1

theorem C2_promotion_move_witness :
    ∃ store',
      (promoteMemories behFail ⟨none, none, none⟩
          ⟨some [(keyA, entryU "u".toList 3)], some ⟨[], 0⟩⟩).2.redis = some store' ∧
      (lookupKey keyA store' = none ↔
        okB (behFail ((⟨[], 0⟩ : EngineState).calls + ([] : List PromotableRec).length)
          (stmEngineReq (⟨dataU "u".toList 3, keyA⟩ : PromotableRec).data)) = true) ∧
      (okB (behFail ((⟨[], 0⟩ : EngineState).calls + ([] : List PromotableRec).length)
          (stmEngineReq (⟨dataU "u".toList 3, keyA⟩ : PromotableRec).data)) = false →
        lookupKey keyA store' = lookupKey keyA [(keyA, entryU "u".toList 3)] ∧
        (⟨dataU "u".toList 3, keyA⟩ : PromotableRec) ∈
          getPromotableMemories (some store') none) := by
  have h := C2_promotion_move behFail ⟨none, none, none⟩
    [(keyA, entryU "u".toList 3)] ⟨[], 0⟩ (by decide)
    ⟨dataU "u".toList 3, keyA⟩ [] [] (by decide)
  exact h

theorem C3_promotable_iff_witness :
    ((⟨(entryU "u".toList 3).data, mkStmKey "u".toList "T".toList "a".toList⟩ :
        PromotableRec) ∈
      getPromotableMemories
        (some [(mkStmKey "u".toList "T".toList "a".toList, entryU "u".toList 3)])
        (some "u".toList) ↔
      (3 ≤ (entryU "u".toList 3).data.access_count ∧
        ∀ u0, (some "u".toList : Option Str) = some u0 → u0 = "u".toList)) :=
  C3_promotable_iff [(mkStmKey "u".toList "T".toList "a".toList, entryU "u".toList 3)]
    (some "u".toList) "u".toList "T".toList "a".toList (entryU "u".toList 3)
    (by decide) (by decide) (by intro u0 h; cases h; exact ⟨by decide, by decide, by decide, by decide⟩)

theorem C4_access_count_witness :
    lookupKey keyA (getShortTerm [(keyA, entryU "u".toList 0)] "u".toList).2 =
      some (bumpEntry (entryU "u".toList 0)) ∧
    (bumpEntry (entryU "u".toList 0)).data.access_count = 1 := by
  have h := (C4_access_count [(keyA, entryU "u".toList 0)]).2.1 "u".toList keyA
    (entryU "u".toList 0) (by decide)
  have hg : globMatch (SHORT_TERM_NS ++ "u".toList ++ ['*']) keyA = true := by decide
  refine ⟨?_, h.2⟩
  rw [h.1, if_pos hg]

theorem C5_short_term_only_witness :
    (addMemory behOk ⟨[msgTea], some "u".toList, none, none, none, true⟩
        "T".toList "ab".toList false ⟨some [], some ⟨[], 0⟩⟩).1.long_term = false ∧
    (addMemory behOk ⟨[msgTea], some "u".toList, none, none, none, true⟩
        "T".toList "ab".toList false ⟨some [], some ⟨[], 0⟩⟩).1.result = none ∧
    (addMemory behOk ⟨[msgTea], some "u".toList, none, none, none, true⟩
        "T".toList "ab".toList false ⟨some [], some ⟨[], 0⟩⟩).2.engine =
      some ⟨[], 0⟩ :=
  C5_short_term_only behOk ⟨[msgTea], some "u".toList, none, none, none, true⟩
    "T".toList "ab".toList false ⟨some [], some ⟨[], 0⟩⟩ rfl

theorem C10_owner_prefix_aliasing_witness :
    globMatch (SHORT_TERM_NS ++ "u1".toList ++ ['*'])
      (mkStmKey "u10".toList "T".toList "a".toList) = true ∧
    bumpData (entryU "u10".toList 0).data ∈
      (getShortTerm [(mkStmKey "u10".toList "T".toList "a".toList, entryU "u10".toList 0)]
        "u1".toList).1 ∧
    (mkStmKey "u10".toList "T".toList "a".toList, bumpEntry (entryU "u10".toList 0)) ∈
      (getShortTerm [(mkStmKey "u10".toList "T".toList "a".toList, entryU "u10".toList 0)]
        "u1".toList).2 ∧
    mkUserShortItem "u1".toList (bumpData (entryU "u10".toList 0).data) ∈
      (getUserMemories "u1".toList true
        (some [(mkStmKey "u10".toList "T".toList "a".toList, entryU "u10".toList 0)])
        none).1.memories ∧
    (':' ∉ "u1".toList → ':' ∉ "u10".toList →
      (globMatch (SHORT_TERM_NS ++ "u1".toList ++ [':', '*'])
          (mkStmKey "u10".toList "T".toList "a".toList) = true ↔
        "u1".toList = "u10".toList)) :=
  C10_owner_prefix_aliasing "u1".toList "u10".toList "T".toList "a".toList
    [(mkStmKey "u10".toList "T".toList "a".toList, entryU "u10".toList 0)]
    (entryU "u10".toList 0) (by decide) (by decide) (by decide)

end Mem0
